import Mathlib

/-
Shallow embedding of the dotfile-value-toggle engine.

Strings from the TypeScript source are modelled as `List Char`; JavaScript's
`-1`-returning index searches are modelled with `Option Nat` / `Int` exactly
where the source consumes them.  Whitespace is the ASCII subset of JS `\s`
(space, tab, CR, LF, VT, FF); the configuration files in scope are ASCII.
-/

def spaceChar : Char := Char.ofNat 32

def tabChar : Char := Char.ofNat 9

def nlChar : Char := Char.ofNat 10

def crChar : Char := Char.ofNat 13

def vtChar : Char := Char.ofNat 11

def ffChar : Char := Char.ofNat 12

def dqc : Char := Char.ofNat 34

def sqc : Char := Char.ofNat 39

def hashChar : Char := Char.ofNat 35

def eqChar : Char := Char.ofNat 61

def underscoreChar : Char := Char.ofNat 95

def dotChar : Char := Char.ofNat 46

def dashChar : Char := Char.ofNat 45

/-- Convenience: a Lean string literal as the `List Char` the embedding uses. -/
def str (s : String) : List Char := s.toList

/-- ASCII fragment of JavaScript whitespace (`\s`, `String.prototype.trim`). -/
def isWS (c : Char) : Bool :=
  c == spaceChar || c == tabChar || c == nlChar || c == crChar || c == vtChar || c == ffChar

/-- JS `trim()`: drop leading whitespace. -/
def ltrim (l : List Char) : List Char := l.dropWhile isWS

/-- JS `trim()`: drop trailing whitespace. -/
def rtrim (l : List Char) : List Char := (l.reverse.dropWhile isWS).reverse

/-- JS `String.prototype.trim`. -/
def trim (l : List Char) : List Char := rtrim (ltrim l)

def isQuoteChar (c : Char) : Bool := c == dqc || c == sqc

/-- JS `s.replace(/^["']|["']$/g, '')` from `settings.ts`: removes one leading
quote character if present and one trailing quote character if present,
independently (the two need not match or both be present). -/
def stripQuotes (l : List Char) : List Char :=
  let l1 := match l with
    | [] => []
    | c :: rest => if isQuoteChar c then rest else c :: rest
  match l1.getLast? with
  | some c => if isQuoteChar c then l1.dropLast else l1
  | none => l1

/-- JS `toLowerCase()` (ASCII). -/
def lowerStr (l : List Char) : List Char := l.map Char.toLower

/-- Loop body of `findToggleValues` (settings.ts, lines 48-60): first group
containing the value case-sensitively, else case-insensitively. -/
def findToggleAux (u : List Char) : List (List (List Char)) → Option (List (List Char))
  | [] => none
  | group :: rest =>
    if group.contains u then some group
    else if (group.map lowerStr).contains (lowerStr u) then some group
    else findToggleAux u rest

/-- `findToggleValues` from `src/config/settings.ts` (lines 37-62). -/
def findToggleValues (value : List Char) (toggleValues : List (List (List Char))) :
    Option (List (List Char)) :=
  let trimmedValue := (trim value).filter (fun c => c ≠ crChar)
  let unquotedValue := stripQuotes trimmedValue
  if unquotedValue = [] then none
  else findToggleAux unquotedValue toggleValues

/-- JS `trimmedValue.startsWith('"') && trimmedValue.endsWith('"')`. -/
def hasDoubleQuotes (l : List Char) : Bool :=
  (l.head? == some dqc) && (l.getLast? == some dqc)

/-- JS `trimmedValue.startsWith("'") && trimmedValue.endsWith("'")`. -/
def hasSingleQuotes (l : List Char) : Bool :=
  (l.head? == some sqc) && (l.getLast? == some sqc)

/-- JS `Array.prototype.indexOf` on an array of strings (`none` models `-1`). -/
def arrIndexOf (v : List Char) : List (List Char) → Option Nat
  | [] => none
  | w :: rest => if w == v then some 0 else (arrIndexOf v rest).map (fun n => n + 1)

/-- `getNextValue` from `src/config/settings.ts` (lines 67-91). -/
def getNextValue (value : List Char) (toggleValues : List (List Char)) : List Char :=
  let trimmedValue := trim value
  let unquotedValue := stripQuotes trimmedValue
  match arrIndexOf unquotedValue toggleValues with
  | none => value
  | some currentIndex =>
    let nextIndex := (currentIndex + 1) % toggleValues.length
    let newValue := toggleValues.getD nextIndex []
    if hasDoubleQuotes trimmedValue then dqc :: (newValue ++ [dqc])
    else if hasSingleQuotes trimmedValue then sqc :: (newValue ++ [sqc])
    else newValue

/-- `[A-Za-z_]` (first character of a key in `KEY_VALUE_REGEX`). -/
def isKeyStartChar (c : Char) : Bool := c.isAlpha || c == underscoreChar

/-- `[A-Za-z0-9_.-]` (continuation characters of a key in `KEY_VALUE_REGEX`). -/
def isKeyChar (c : Char) : Bool :=
  c.isAlpha || c.isDigit || c == underscoreChar || c == dotChar || c == dashChar

/-- The `([A-Za-z_][A-Za-z0-9_.-]*)\s*=\s*(.*)$` part of `KEY_VALUE_REGEX`,
matched at the head of `l`; returns the captured key and raw value.  The
greedy character classes are pairwise disjoint, so the backtracking regex is
equivalent to this deterministic longest-run parse. -/
def kvMatchCore (l : List Char) : Option (List Char × List Char) :=
  match l with
  | [] => none
  | c :: rest =>
    if isKeyStartChar c then
      let afterKey := rest.dropWhile isKeyChar
      match afterKey.dropWhile isWS with
      | eqc :: post =>
        if eqc == eqChar then some (c :: rest.takeWhile isKeyChar, post.dropWhile isWS)
        else none
      | [] => none
    else none

/-- The optional `(?:export\s+)?` prefix of `KEY_VALUE_REGEX`: if `l` starts
with the literal `export` followed by at least one whitespace character,
returns the remainder after the (maximal) whitespace run. -/
def matchExportWS (l : List Char) : Option (List Char) :=
  if (str "export").isPrefixOf l then
    let r := l.drop 6
    if r.takeWhile isWS = [] then none else some (r.dropWhile isWS)
  else none

/-- Full `KEY_VALUE_REGEX` match (dotFileParser): tries the `export`-prefixed
parse first (as the regex engine does), falling back to a parse from the line
start when that branch fails. -/
def kvMatch (l : List Char) : Option (List Char × List Char) :=
  match matchExportWS l with
  | some rest =>
    match kvMatchCore rest with
    | some r => some r
    | none => kvMatchCore l
  | none => kvMatchCore l

/-- JS `String.prototype.indexOf(pattern)` helper: offset of the first position
where `pat` is a prefix, as `Option Nat`. -/
def strIdxAux (pat : List Char) : List Char → Option Nat
  | [] => if pat.isPrefixOf ([] : List Char) then some 0 else none
  | c :: rest =>
    if pat.isPrefixOf (c :: rest) then some 0
    else (strIdxAux pat rest).map (fun n => n + 1)

/-- JS `String.prototype.indexOf(pattern)` (`-1` when absent). -/
def strIndexOf (l pat : List Char) : Int :=
  match strIdxAux pat l with
  | some i => (i : Int)
  | none => -1

/-- Offset of the first occurrence of character `c`, as `Option Nat`. -/
def charIdxAux (c : Char) : List Char → Option Nat
  | [] => none
  | x :: rest => if x == c then some 0 else (charIdxAux c rest).map (fun n => n + 1)

/-- JS `String.prototype.indexOf(char, fromIndex)` (`-1` when absent; a
negative `fromIndex` is clamped to `0`, as in JS). -/
def charIndexOfFrom (l : List Char) (c : Char) (start : Int) : Int :=
  match charIdxAux c (l.drop start.toNat) with
  | some i => ((start.toNat + i : Nat) : Int)
  | none => -1

/-- `DotFileEntry` from `src/types.ts`.  Offsets are `Int` because the source
computes them from JS `indexOf` results which can in principle be `-1`. -/
structure DotFileEntry where
  key : List Char
  value : List Char
  line : Nat
  valueStart : Int
  valueEnd : Int
  isToggleable : Bool
  toggleValues : Option (List (List Char))
  rawLine : List Char
deriving DecidableEq

/-- `parseLine` from the dot-file parser (lines 21-59). -/
def parseLine (line : List Char) (lineNumber : Nat)
    (toggleValues : List (List (List Char))) : Option DotFileEntry :=
  let trimmedLine := trim line
  if trimmedLine.isEmpty || trimmedLine.head? == some hashChar then none
  else
    let cleanLine := line.filter (fun c => c ≠ crChar)
    match kvMatch cleanLine with
    | none => none
    | some (key, rawValue) =>
      let value := trim rawValue
      let keyIndex := strIndexOf cleanLine key
      let equalsIndex := charIndexOfFrom cleanLine eqChar keyIndex
      let tailAfterEq := cleanLine.drop (equalsIndex + 1).toNat
      let valueStart :=
        equalsIndex + 1 + ((tailAfterEq.length : Int) - ((tailAfterEq.dropWhile isWS).length : Int))
      let valueEnd := valueStart + (value.length : Int)
      let matched := findToggleValues value toggleValues
      some { key := key, value := value, line := lineNumber,
             valueStart := valueStart, valueEnd := valueEnd,
             isToggleable := matched.isSome, toggleValues := matched, rawLine := line }

/-- The per-line loop of `parseFile`/`parseDocument`: apply `parseLine` to each
line with its 0-based index, collecting the non-`null` results. -/
def parseLinesFrom (toggleValues : List (List (List Char))) :
    Nat → List (List Char) → List DotFileEntry
  | _, [] => []
  | i, l :: rest =>
    match parseLine l i toggleValues with
    | some e => e :: parseLinesFrom toggleValues (i + 1) rest
    | none => parseLinesFrom toggleValues (i + 1) rest

/-- Outcome of `GitignoreService.showWarning` (`'cancel'`, `'gitignore'`, or
any other/dismissed answer, which the source treats as proceed). -/
inductive WarnResult
  | cancel
  | gitignore
  | proceed
deriving DecidableEq

/-- The error messages `ToggleService` puts in `ToggleResult.error`, one
constructor per format string of the source. -/
inductive ToggleError
  | cancelled
  | noEntryAtLine (line : Nat)
  | notToggleable (value : List Char)
  | editFailed
deriving DecidableEq

/-- `ToggleResult` from `src/types.ts`. -/
structure ToggleResult where
  success : Bool
  newValue : Option (List Char)
  error : Option ToggleError
  wasGitignoreWarningShown : Option Bool
deriving DecidableEq

/-- The collaborators `ToggleService.toggle` consults, modelled as inputs: the
configuration flag, the per-session acknowledged set (restricted to the target
path), the gitignore status of the path, the user's answer to the warning, and
whether the host editor reports the edit as applied. -/
structure ToggleEnv where
  showGitignoreWarning : Bool
  acknowledged : Bool
  isIgnored : Bool
  warnResult : WarnResult
  editSucceeds : Bool
deriving DecidableEq

/-- Observable effects of one toggle request: the returned `ToggleResult`, the
document's lines afterwards, and whether the path is in the acknowledged set
afterwards.  The document is modelled as its list of lines (the file's content
split on the newline character, as `parseFile` splits it). -/
structure ToggleOutput where
  result : ToggleResult
  lines : List (List Char)
  ackOut : Bool
deriving DecidableEq

/-- `editBuilder.replace(new Range(line, valueStart, line, valueEnd), nv)`:
replace the character range `[s, e)` of one line. -/
def replaceRange (l : List Char) (s e : Int) (nv : List Char) : List Char :=
  l.take s.toNat ++ nv ++ l.drop e.toNat

/-- `ToggleService.toggle` after the gitignore gate (lines 47-96): fresh parse,
locate the entry at the line, validate, compute the next value, apply and save
the ranged edit.  `ack` is the acknowledged-set state the gate produced. -/
def toggleRest (env : ToggleEnv) (lines : List (List Char))
    (toggleValues : List (List (List Char))) (line : Nat) (ack : Bool) : ToggleOutput :=
  let entries := parseLinesFrom toggleValues 0 lines
  match entries.find? (fun e => e.line == line) with
  | none =>
    ⟨⟨false, none, some (ToggleError.noEntryAtLine line), none⟩, lines, ack⟩
  | some entry =>
    if !entry.isToggleable || entry.toggleValues.isNone then
      ⟨⟨false, none, some (ToggleError.notToggleable entry.value), none⟩, lines, ack⟩
    else
      let newValue := getNextValue entry.value (entry.toggleValues.getD [])
      if env.editSucceeds then
        let newLines :=
          lines.set line (replaceRange (lines.getD line []) entry.valueStart entry.valueEnd newValue)
        ⟨⟨true, some newValue, none, some false⟩, newLines, ack⟩
      else
        ⟨⟨false, none, some ToggleError.editFailed, none⟩, lines, ack⟩

/-- `ToggleService.toggle` (lines 22-97).  The gitignore gate: when the warning
is enabled, the path unacknowledged and not gitignored, a `cancel` answer
returns immediately with no edit; any other answer records the path as
acknowledged and proceeds (the `gitignore` answer additionally edits the
`.gitignore` file, which is outside the toggled document). -/
def toggle (env : ToggleEnv) (lines : List (List Char))
    (toggleValues : List (List (List Char))) (line : Nat) : ToggleOutput :=
  if env.showGitignoreWarning && !env.acknowledged && !env.isIgnored then
    match env.warnResult with
    | WarnResult.cancel =>
      ⟨⟨false, none, some ToggleError.cancelled, some true⟩, lines, env.acknowledged⟩
    | _ => toggleRest env lines toggleValues line true
  else toggleRest env lines toggleValues line env.acknowledged

/-- `ToggleService.toggleSilent` after the gitignore gate (lines 132-177):
identical fresh-parse/locate/validate/edit pipeline; the only source-level
difference is that the edit goes through a `WorkspaceEdit` instead of a
visible editor. -/
def toggleSilentRest (env : ToggleEnv) (lines : List (List Char))
    (toggleValues : List (List (List Char))) (line : Nat) (ack : Bool) : ToggleOutput :=
  let entries := parseLinesFrom toggleValues 0 lines
  match entries.find? (fun e => e.line == line) with
  | none =>
    ⟨⟨false, none, some (ToggleError.noEntryAtLine line), none⟩, lines, ack⟩
  | some entry =>
    if !entry.isToggleable || entry.toggleValues.isNone then
      ⟨⟨false, none, some (ToggleError.notToggleable entry.value), none⟩, lines, ack⟩
    else
      let newValue := getNextValue entry.value (entry.toggleValues.getD [])
      if env.editSucceeds then
        let newLines :=
          lines.set line (replaceRange (lines.getD line []) entry.valueStart entry.valueEnd newValue)
        ⟨⟨true, some newValue, none, some false⟩, newLines, ack⟩
      else
        ⟨⟨false, none, some ToggleError.editFailed, none⟩, lines, ack⟩

/-- `ToggleService.toggleSilent` (lines 109-178), with the same gitignore gate
as `toggle`. -/
def toggleSilent (env : ToggleEnv) (lines : List (List Char))
    (toggleValues : List (List (List Char))) (line : Nat) : ToggleOutput :=
  if env.showGitignoreWarning && !env.acknowledged && !env.isIgnored then
    match env.warnResult with
    | WarnResult.cancel =>
      ⟨⟨false, none, some ToggleError.cancelled, some true⟩, lines, env.acknowledged⟩
    | _ => toggleSilentRest env lines toggleValues line true
  else toggleSilentRest env lines toggleValues line env.acknowledged

/-- `ToggleService.toggleEntry` (lines 102-104): delegates to `toggle` with
the entry's line number. -/
def toggleEntry (env : ToggleEnv) (lines : List (List Char))
    (toggleValues : List (List (List Char))) (entry : DotFileEntry) : ToggleOutput :=
  toggle env lines toggleValues entry.line

/-- An environment in which the gitignore gate is disabled and edits apply. -/
def plainEnv : ToggleEnv :=
  ⟨false, false, false, WarnResult.proceed, true⟩

/-- State of `FileWatcherService` visible to consumers: the path-to-parsed-file
map (as the insertion-ordered association list a JS `Map` is) and how many
times the change event has fired. -/
structure IndexState where
  parsedFiles : List (List Char × List DotFileEntry)
  firedCount : Nat
deriving DecidableEq

/-- JS `Map.prototype.set`: replace the value at an existing key, else append. -/
def mapSet (m : List (List Char × List DotFileEntry)) (kv : List Char × List DotFileEntry) :
    List (List Char × List DotFileEntry) :=
  if m.any (fun p => p.1 == kv.1) then m.map (fun p => if p.1 == kv.1 then kv else p)
  else m ++ [kv]

/-- `FileWatcherService.refresh` (fileWatcherService.ts, lines 73-82) as the
sequence of consumer-observable states of one invocation under the
single-threaded cooperative model: the synchronous prefix runs
`this.parsedFiles.clear()`, then the invocation suspends on
`await parseAllFiles()` (an observable point where other tasks run), and on
resumption the `set` loop and the single `fire()` run synchronously.
`scanned` is the result the rescan returns. -/
def refreshTrace (s : IndexState) (scanned : List (List Char × List DotFileEntry)) :
    List IndexState :=
  [s,
   { parsedFiles := [], firedCount := s.firedCount },
   { parsedFiles := scanned.foldl mapSet [], firedCount := s.firedCount + 1 }]

/-- The value `"a"` (double quotes included) as a configured group member. -/
def qaVal : List Char := dqc :: (str "a" ++ [dqc])

/-- The value `"a'` : a leading double quote and a trailing single quote. -/
def mmVal : List Char := dqc :: (str "a" ++ [sqc])

/-- A parsed entry for line 0 of `A=x`. -/
def entryW1 : DotFileEntry := ⟨str "A", str "x", 0, 2, 3, false, none, str "A=x"⟩

/-- An entry for the same line with different (stale) cached value/offsets. -/
def entryW2 : DotFileEntry := ⟨str "B", str "y", 0, 99, 100, false, none, str "B=y"⟩

/-- An index state holding one parsed file, used to observe a refresh. -/
def refreshInit : IndexState := ⟨[(str "a", [])], 0⟩

/-- k-fold application of `getNextValue` with a fixed group. -/
def nextCycle (G : List (List Char)) : Nat → List Char → List Char
  | 0, v => v
  | k + 1, v => nextCycle G k (getNextValue v G)

/-- The quote style `getNextValue` detects on the trimmed input (none, double,
or single), per its `hasDoubleQuotes` / `hasSingleQuotes` tests. -/
inductive QuoteStyle
  | noQuote
  | double
  | single
deriving DecidableEq

/-- Style detection as `getNextValue` performs it (double checked first). -/
def detectStyle (l : List Char) : QuoteStyle :=
  if hasDoubleQuotes l then QuoteStyle.double
  else if hasSingleQuotes l then QuoteStyle.single
  else QuoteStyle.noQuote

/-- Re-wrapping in a detected quote style, as `getNextValue`'s result branches
perform it. -/
def quoteWrap : QuoteStyle → List Char → List Char
  | QuoteStyle.noQuote, w => w
  | QuoteStyle.double, w => dqc :: (w ++ [dqc])
  | QuoteStyle.single, w => sqc :: (w ++ [sqc])

/-- The spec's offsets example: `FOO = "bar"` followed by two trailing spaces. -/
def exampleLine : List Char :=
  str "FOO = " ++ ([dqc] ++ (str "bar" ++ ([dqc] ++ str "  ")))

/-- The entry `parseLine` produces for `exampleLine`: the span `[6, 11)` bounds
exactly the quoted `"bar"`, excluding the leading space and trailing spaces. -/
def exampleEntry : DotFileEntry :=
  ⟨str "FOO", [dqc] ++ (str "bar" ++ [dqc]), 0, 6, 11, false, none, exampleLine⟩

/-- C1: the spec requires `getNextValue` to look the unquoted value up
case-insensitively (matching `findToggleValues`' leniency) and, when the
lookup fails, to have the failure signalled upstream.  The code uses the
case-sensitive `Array.indexOf`: for the file value `yes` against the
configured group `["YES","NO"]` the matcher flags the entry toggleable, the
resolver's lookup fails and returns `yes` unchanged, and the toggle then
reports `success = true` with the unchanged value and rewrites the file with
identical content — no failure is signalled. -/
theorem toggle_case_lookup_bug :
    findToggleValues (str "yes") [[str "YES", str "NO"]] = some [str "YES", str "NO"] ∧
    getNextValue (str "yes") [str "YES", str "NO"] = str "yes" ∧
    (toggle plainEnv [str "FOO=yes"] [[str "YES", str "NO"]] 0).result =
      ⟨true, some (str "yes"), none, some false⟩ ∧
    (toggle plainEnv [str "FOO=yes"] [[str "YES", str "NO"]] 0).lines = [str "FOO=yes"] := by
  decide

/-- C9: `toggleSilent` and `toggle` produce the same outcome, the same
resulting document lines and the same acknowledged-set state on every input;
in the source they differ only in the presentation channel used to apply the
edit (a visible editor vs. a background workspace edit). -/
theorem toggle_toggleSilent_equiv :
    ∀ (env : ToggleEnv) (lines : List (List Char)) (tv : List (List (List Char))) (line : Nat),
      toggleSilent env lines tv line = toggle env lines tv line := by
  intro env lines tv line
  rfl

/-- C10: `toggleEntry` returns exactly `toggle` at the entry's line number,
and two entries with the same line number (however stale the rest of their
fields) produce identical results — only the line number is consulted. -/
theorem toggleEntry_by_line (env : ToggleEnv) (lines : List (List Char))
    (tv : List (List (List Char))) (e e2 : DotFileEntry) (h : e2.line = e.line) :
    toggleEntry env lines tv e = toggle env lines tv e.line ∧
    toggleEntry env lines tv e2 = toggleEntry env lines tv e := by
  constructor
  · rfl
  · show toggle env lines tv e2.line = toggle env lines tv e.line
    rw [h]

theorem toggleEntry_by_line_witness :
    toggleEntry plainEnv [str "A=x"] [] entryW1 = toggle plainEnv [str "A=x"] [] entryW1.line ∧
    toggleEntry plainEnv [str "A=x"] [] entryW2 = toggleEntry plainEnv [str "A=x"] [] entryW1 :=
  toggleEntry_by_line plainEnv [str "A=x"] [] entryW1 entryW2 (by decide)

/-- C8: the claim says no consumer can ever observe a partially-emptied map
during `refresh`.  The code runs `this.parsedFiles.clear()` before suspending
on `await parseAllFiles()`, so at that observable suspension point the map is
empty even though both the pre-state and the post-state map the path: the
replacement is not atomic. -/
theorem refresh_atomicity_counterexample :
    (refreshTrace refreshInit [(str "a", [])])[1]? = some ⟨[], 0⟩ ∧
    refreshInit.parsedFiles = [(str "a", [])] ∧
    (refreshTrace refreshInit [(str "a", [])])[2]? = some ⟨[(str "a", [])], 1⟩ := by
  decide

/-- C8 (amended): `refresh` first empties the map, suspends for the rescan
(during which consumers can observe the empty index), then repopulates the
map synchronously from the rescan result and fires exactly one change
notification per invocation. -/
theorem refresh_trace_amended (s : IndexState)
    (scanned : List (List Char × List DotFileEntry)) :
    (refreshTrace s scanned).head? = some s ∧
    (refreshTrace s scanned)[1]? = some ⟨[], s.firedCount⟩ ∧
    (refreshTrace s scanned).getLast? = some ⟨scanned.foldl mapSet [], s.firedCount + 1⟩ :=
  ⟨rfl, rfl, rfl⟩

/-- C3 (counterexample): with the legitimate two-member group
`[⟨"a"⟩, b]` (first member spelled with surrounding double quotes) and
`v = ⟨"a"⟩` at index 0, the claim demands `nextValue(v, G) = G[1] = b`; the
code strips the quotes, fails the lookup (the unquoted `a` is not a member)
and returns the input unchanged. -/
theorem nextValue_cycle_counterexample :
    getNextValue qaVal [qaVal, str "b"] = qaVal ∧
    [qaVal, str "b"][(0 + 1) % 2]? = some (str "b") ∧
    qaVal ≠ str "b" := by
  decide

/-- C4 (counterexample): for the input `"a'` (mismatched quotes) no quote
style is detected — `hasDoubleQuotes` and `hasSingleQuotes` are both false —
so the claim permits no quote characters to be removed; still the code strips
both unpaired quote characters before the lookup and toggles to the bare `b`,
rather than leaving the unresolvable input unchanged. -/
theorem nextValue_quote_counterexample :
    hasDoubleQuotes (trim mmVal) = false ∧
    hasSingleQuotes (trim mmVal) = false ∧
    (∃ c ∈ mmVal, isQuoteChar c = true) ∧
    getNextValue mmVal [str "a", str "b"] = str "b" ∧
    (∀ c ∈ getNextValue mmVal [str "a", str "b"], isQuoteChar c = false) ∧
    getNextValue mmVal [str "a", str "b"] ≠ mmVal := by
  decide

/-- C5 (counterexample): the value `"a` carries a leading double quote with no
trailing quote, so no matching pair is present and the claim's normalization
keeps the quote, which matches no group (neither verbatim nor
case-insensitively); the code nevertheless strips the unpaired quote and
reports the group, flagging the entry toggleable. -/
theorem findToggleValues_pair_counterexample :
    findToggleValues (dqc :: str "a") [[str "a", str "b"]] = some [str "a", str "b"] ∧
    (dqc :: str "a") ∉ [str "a", str "b"] ∧
    lowerStr (dqc :: str "a") ∉ [str "a", str "b"].map lowerStr := by
  decide

lemma findToggleAux_eq_find? (u : List Char) (tv : List (List (List Char))) :
    findToggleAux u tv =
      tv.find? (fun g => g.contains u || (g.map lowerStr).contains (lowerStr u)) := by
  induction tv with
  | nil => rfl
  | cons g rest ih =>
    by_cases h1 : g.contains u = true
    · have hr : (g :: rest).find?
          (fun g => g.contains u || (g.map lowerStr).contains (lowerStr u)) = some g :=
        List.find?_cons_of_pos _ (by rw [h1]; exact Bool.true_or _)
      have hl : findToggleAux u (g :: rest) = some g := by
        rw [findToggleAux, if_pos h1]
      rw [hl, hr]
    · have h1f : g.contains u = false := by
        cases hc : g.contains u
        · rfl
        · exact absurd hc h1
      by_cases h2 : (g.map lowerStr).contains (lowerStr u) = true
      · have hr : (g :: rest).find?
            (fun g => g.contains u || (g.map lowerStr).contains (lowerStr u)) = some g :=
          List.find?_cons_of_pos _ (by rw [h1f, h2]; rfl)
        have hl : findToggleAux u (g :: rest) = some g := by
          rw [findToggleAux, if_neg h1, if_pos h2]
        rw [hl, hr]
      · have h2f : (g.map lowerStr).contains (lowerStr u) = false := by
          cases hc : (g.map lowerStr).contains (lowerStr u)
          · rfl
          · exact absurd hc h2
        have hr : (g :: rest).find?
            (fun g => g.contains u || (g.map lowerStr).contains (lowerStr u)) =
            rest.find? (fun g => g.contains u || (g.map lowerStr).contains (lowerStr u)) :=
          List.find?_cons_of_neg _ (by rw [h1f, h2f]; exact Bool.false_ne_true)
        have hl : findToggleAux u (g :: rest) = findToggleAux u rest := by
          rw [findToggleAux, if_neg h1, if_neg h2]
        rw [hl, hr, ih]

/-- C6: cycle-group matching is the first group, in configured order, that
contains the normalized value verbatim or case-insensitively; the returned
group is always the originally-configured one (canonical casing), as the
concrete `yes` / `["YES","NO"]` instance shows. -/
theorem findToggleValues_first_match :
    (∀ (value : List Char) (tv : List (List (List Char))),
      findToggleValues value tv =
        (if stripQuotes ((trim value).filter (fun c => c ≠ crChar)) = [] then none
         else tv.find? (fun g =>
           g.contains (stripQuotes ((trim value).filter (fun c => c ≠ crChar))) ||
           (g.map lowerStr).contains
             (lowerStr (stripQuotes ((trim value).filter (fun c => c ≠ crChar))))))) ∧
    findToggleValues (str "yes") [[str "YES", str "NO"]] = some [str "YES", str "NO"] := by
  constructor
  · intro value tv
    show (if stripQuotes ((trim value).filter (fun c => c ≠ crChar)) = [] then none
          else findToggleAux (stripQuotes ((trim value).filter (fun c => c ≠ crChar))) tv) = _
    by_cases h : stripQuotes ((trim value).filter (fun c => c ≠ crChar)) = []
    · rw [if_pos h, if_pos h]
    · rw [if_neg h, if_neg h, findToggleAux_eq_find?]
  · decide

lemma toggleRest_props (env : ToggleEnv) (lines : List (List Char))
    (tv : List (List (List Char))) (line : Nat) (ack : Bool) :
    ((parseLinesFrom tv 0 lines).find? (fun e => e.line == line) = none →
      toggleRest env lines tv line ack =
        ⟨⟨false, none, some (ToggleError.noEntryAtLine line), none⟩, lines, ack⟩) ∧
    (∀ e, (parseLinesFrom tv 0 lines).find? (fun e2 => e2.line == line) = some e →
      (e.isToggleable = false ∨ e.toggleValues = none) →
      toggleRest env lines tv line ack =
        ⟨⟨false, none, some (ToggleError.notToggleable e.value), none⟩, lines, ack⟩) ∧
    ((toggleRest env lines tv line ack).result.success = false →
      (toggleRest env lines tv line ack).lines = lines) := by
  cases hf : (parseLinesFrom tv 0 lines).find? (fun e => e.line == line) with
  | none =>
    refine ⟨fun _ => by simp only [toggleRest, hf], fun e he => ?_,
      fun _ => by simp only [toggleRest, hf]⟩
    simp at he
  | some entry =>
    refine ⟨fun hn => ?_, fun e he hrej => ?_, ?_⟩
    · simp at hn
    · have hee : entry = e := by injection he
      subst hee
      have hcond : (!entry.isToggleable || entry.toggleValues.isNone) = true := by
        cases hrej with
        | inl h => rw [h]; rfl
        | inr h => rw [h]; simp
      simp only [toggleRest, hf, hcond, if_true]
    · cases hcond : (!entry.isToggleable || entry.toggleValues.isNone) with
      | true =>
        intro _
        simp only [toggleRest, hf, hcond, if_true]
      | false =>
        cases hes : env.editSucceeds with
        | true =>
          intro hs
          simp only [toggleRest, hf, hcond, hes] at hs
          simp at hs
        | false =>
          intro _
          simp only [toggleRest, hf, hcond, hes]
          simp

/-- C2: a toggle request whose fresh parse yields no entry at the requested
line, or a non-toggleable entry there, returns the corresponding structured
failure outcome and leaves the document lines untouched; more generally every
unsuccessful toggle leaves the lines unchanged.  The hypothesis rules out the
request being cancelled at the gitignore warning before the parse stage is
reached (a cancellation is also a no-write structured failure, covered by the
last conjunct). -/
theorem toggle_rejected_no_write (env : ToggleEnv) (lines : List (List Char))
    (tv : List (List (List Char))) (line : Nat)
    (hnc : (env.showGitignoreWarning && !env.acknowledged && !env.isIgnored) = true →
      env.warnResult ≠ WarnResult.cancel) :
    ((parseLinesFrom tv 0 lines).find? (fun e => e.line == line) = none →
      (toggle env lines tv line).result =
        ⟨false, none, some (ToggleError.noEntryAtLine line), none⟩ ∧
      (toggle env lines tv line).lines = lines) ∧
    (∀ e, (parseLinesFrom tv 0 lines).find? (fun e2 => e2.line == line) = some e →
      (e.isToggleable = false ∨ e.toggleValues = none) →
      (toggle env lines tv line).result =
        ⟨false, none, some (ToggleError.notToggleable e.value), none⟩ ∧
      (toggle env lines tv line).lines = lines) ∧
    ((toggle env lines tv line).result.success = false →
      (toggle env lines tv line).lines = lines) := by
  by_cases hb : (env.showGitignoreWarning && !env.acknowledged && !env.isIgnored) = true
  · cases hw : env.warnResult with
    | cancel => exact absurd hw (hnc hb)
    | gitignore =>
      have ht : toggle env lines tv line = toggleRest env lines tv line true := by
        simp only [toggle, hb, hw, if_true]
      rw [ht]
      have h := toggleRest_props env lines tv line true
      exact ⟨fun hn => ⟨congrArg ToggleOutput.result (h.1 hn), congrArg ToggleOutput.lines (h.1 hn)⟩,
        fun e he hr => ⟨congrArg ToggleOutput.result (h.2.1 e he hr),
          congrArg ToggleOutput.lines (h.2.1 e he hr)⟩,
        h.2.2⟩
    | proceed =>
      have ht : toggle env lines tv line = toggleRest env lines tv line true := by
        simp only [toggle, hb, hw, if_true]
      rw [ht]
      have h := toggleRest_props env lines tv line true
      exact ⟨fun hn => ⟨congrArg ToggleOutput.result (h.1 hn), congrArg ToggleOutput.lines (h.1 hn)⟩,
        fun e he hr => ⟨congrArg ToggleOutput.result (h.2.1 e he hr),
          congrArg ToggleOutput.lines (h.2.1 e he hr)⟩,
        h.2.2⟩
  · have hbf : (env.showGitignoreWarning && !env.acknowledged && !env.isIgnored) = false := by
      cases hx : (env.showGitignoreWarning && !env.acknowledged && !env.isIgnored)
      · rfl
      · exact absurd hx hb
    have ht : toggle env lines tv line = toggleRest env lines tv line env.acknowledged := by
      simp only [toggle, hbf]
      simp
    rw [ht]
    have h := toggleRest_props env lines tv line env.acknowledged
    exact ⟨fun hn => ⟨congrArg ToggleOutput.result (h.1 hn), congrArg ToggleOutput.lines (h.1 hn)⟩,
      fun e he hr => ⟨congrArg ToggleOutput.result (h.2.1 e he hr),
        congrArg ToggleOutput.lines (h.2.1 e he hr)⟩,
      h.2.2⟩

theorem toggle_rejected_no_write_witness :
    ((parseLinesFrom [] 0 [str "# c"]).find? (fun e => e.line == 0) = none →
      (toggle plainEnv [str "# c"] [] 0).result =
        ⟨false, none, some (ToggleError.noEntryAtLine 0), none⟩ ∧
      (toggle plainEnv [str "# c"] [] 0).lines = [str "# c"]) ∧
    (∀ e, (parseLinesFrom [] 0 [str "# c"]).find? (fun e2 => e2.line == 0) = some e →
      (e.isToggleable = false ∨ e.toggleValues = none) →
      (toggle plainEnv [str "# c"] [] 0).result =
        ⟨false, none, some (ToggleError.notToggleable e.value), none⟩ ∧
      (toggle plainEnv [str "# c"] [] 0).lines = [str "# c"]) ∧
    ((toggle plainEnv [str "# c"] [] 0).result.success = false →
      (toggle plainEnv [str "# c"] [] 0).lines = [str "# c"]) :=
  toggle_rejected_no_write plainEnv [str "# c"] [] 0 (by decide)

lemma idx_lt_of_getElem? {α} {l : List α} {i : Nat} {a : α} (h : l[i]? = some a) :
    i < l.length := by
  by_contra hn
  rw [List.getElem?_eq_none (by omega)] at h
  simp at h

lemma mem_of_idx {α} {l : List α} {i : Nat} {a : α} (h : l[i]? = some a) : a ∈ l := by
  have := idx_lt_of_getElem? h
  rw [List.getElem?_eq_getElem this] at h
  have ha : l[i] = a := by injection h
  rw [← ha]
  exact List.getElem_mem this

lemma getD_of_idx {α} {l : List α} {i : Nat} {a : α} (d : α) (h : l[i]? = some a) :
    l.getD i d = a := by
  rw [List.getD_eq_getElem?_getD, h]
  rfl

lemma idx_of_getD {α} {l : List α} {i : Nat} (d : α) (h : i < l.length) :
    l[i]? = some (l.getD i d) := by
  rw [List.getElem?_eq_getElem h, List.getD_eq_getElem?_getD, List.getElem?_eq_getElem h]
  rfl

lemma stripQuotes_eq_self_no_quotes (l : List Char) (h : stripQuotes l = l) :
    hasDoubleQuotes l = false ∧ hasSingleQuotes l = false := by
  cases l with
  | nil => exact ⟨rfl, rfl⟩
  | cons c t =>
    by_cases hq : isQuoteChar c = true
    · exfalso
      have hlen : (stripQuotes (c :: t)).length ≤ t.length := by
        simp only [stripQuotes, hq, if_true]
        cases hgl : t.getLast? with
        | none => exact Nat.le_refl _
        | some x =>
          by_cases hqx : isQuoteChar x = true
          · simp only [hqx, if_true]
            exact Nat.le_trans (Nat.le_of_eq (List.length_dropLast t)) (Nat.sub_le _ _)
          · simp only [hqx]
            simp
      rw [h] at hlen
      simp at hlen
    · have hqf : isQuoteChar c = false := by
        cases hx : isQuoteChar c
        · rfl
        · exact absurd hx hq
      have hcd : (c == dqc) = false ∧ (c == sqc) = false := by
        have : ¬c = dqc ∧ ¬c = sqc := by
          simpa [isQuoteChar] using hqf
        exact ⟨by simp [this.1], by simp [this.2]⟩
      constructor
      · simp [hasDoubleQuotes, hcd.1]
      · simp [hasSingleQuotes, hcd.2]

lemma arrIndexOf_nodup (G : List (List Char)) (v : List Char) (i : Nat)
    (hnd : G.Nodup) (h : G[i]? = some v) : arrIndexOf v G = some i := by
  induction G generalizing i with
  | nil => simp at h
  | cons g rest ih =>
    obtain ⟨hgr, hrest⟩ := List.nodup_cons.mp hnd
    by_cases hg : (g == v) = true
    · have hgv : g = v := by simpa using hg
      cases i with
      | zero => simp [arrIndexOf, hg]
      | succ j =>
        exfalso
        rw [List.getElem?_cons_succ] at h
        exact hgr (hgv ▸ mem_of_idx h)
    · have hgf : (g == v) = false := by
        cases hx : (g == v)
        · rfl
        · exact absurd hx hg
      cases i with
      | zero =>
        exfalso
        rw [List.getElem?_cons_zero] at h
        have : g = v := by injection h
        simp [this] at hgf
      | succ j =>
        rw [List.getElem?_cons_succ] at h
        simp [arrIndexOf, hgf, ih j hrest h]

lemma getNextValue_plain (G : List (List Char)) (v : List Char) (i : Nat)
    (hnd : G.Nodup) (hplain : ∀ w ∈ G, trim w = w ∧ stripQuotes w = w)
    (hv : G[i]? = some v) :
    getNextValue v G = G.getD ((i + 1) % G.length) [] := by
  obtain ⟨htr, hsq⟩ := hplain v (mem_of_idx hv)
  obtain ⟨hd, hs⟩ := stripQuotes_eq_self_no_quotes v hsq
  have hidx : arrIndexOf v G = some i := arrIndexOf_nodup G v i hnd hv
  simp only [getNextValue, htr, hsq, hidx, hd, hs, Bool.false_eq_true, if_false]

lemma nextCycle_getD (G : List (List Char)) (hnd : G.Nodup)
    (hplain : ∀ w ∈ G, trim w = w ∧ stripQuotes w = w) :
    ∀ (k i : Nat) (v : List Char), G[i]? = some v →
      nextCycle G k v = G.getD ((i + k) % G.length) [] := by
  intro k
  induction k with
  | zero =>
    intro i v hv
    have hi : i < G.length := idx_lt_of_getElem? hv
    simp only [nextCycle, Nat.add_zero, Nat.mod_eq_of_lt hi]
    exact (getD_of_idx [] hv).symm
  | succ k ih =>
    intro i v hv
    have hi : i < G.length := idx_lt_of_getElem? hv
    have hn0 : 0 < G.length := Nat.lt_of_le_of_lt (Nat.zero_le _) hi
    have hlt : (i + 1) % G.length < G.length := Nat.mod_lt _ hn0
    have hv2 : G[(i + 1) % G.length]? = some (G.getD ((i + 1) % G.length) []) :=
      idx_of_getD [] hlt
    rw [nextCycle, getNextValue_plain G v i hnd hplain hv, ih ((i + 1) % G.length) _ hv2]
    have harith : ((i + 1) % G.length + k) % G.length = (i + (k + 1)) % G.length := by
      rw [Nat.mod_add_mod]
      have : i + 1 + k = i + (k + 1) := by omega
      rw [this]
    rw [harith]

/-- C3 (amended): for a cycle group of pairwise-distinct members, each free of
surrounding whitespace and of leading/trailing quote characters, and a member
`v` at index `i`: `nextValue v G` is the member at index `(i+1) mod |G|`, and
`|G|` applications of `nextValue` starting from `v` return `v`.  (As stated
the claim fails for groups with quoted or duplicated members.) -/
theorem nextValue_cycle_amended (G : List (List Char)) (v : List Char) (i : Nat)
    (hnd : G.Nodup) (hplain : ∀ w ∈ G, trim w = w ∧ stripQuotes w = w)
    (hv : G[i]? = some v) :
    G[(i + 1) % G.length]? = some (getNextValue v G) ∧
    nextCycle G G.length v = v := by
  have hi : i < G.length := idx_lt_of_getElem? hv
  have hn0 : 0 < G.length := Nat.lt_of_le_of_lt (Nat.zero_le _) hi
  have hlt : (i + 1) % G.length < G.length := Nat.mod_lt _ hn0
  constructor
  · rw [getNextValue_plain G v i hnd hplain hv]
    exact idx_of_getD [] hlt
  · rw [nextCycle_getD G hnd hplain G.length i v hv, Nat.add_mod_right, Nat.mod_eq_of_lt hi]
    exact getD_of_idx [] hv

theorem nextValue_cycle_amended_witness :
    [str "on", str "off"][(0 + 1) % [str "on", str "off"].length]? =
      some (getNextValue (str "on") [str "on", str "off"]) ∧
    nextCycle [str "on", str "off"] [str "on", str "off"].length (str "on") = str "on" :=
  nextValue_cycle_amended [str "on", str "off"] (str "on") 0 (by decide) (by decide) (by decide)

/-- C4 (amended): the three concrete quote-preservation equalities hold, and in
general `getNextValue` returns either its input unchanged or some cycle member
re-wrapped in the detected quote style of the trimmed input; however, when the
input's quotes are mismatched or one-sided no style is detected, the unpaired
quote characters are still stripped for the lookup and are not restored (the
`"a'` instance toggles to the bare `b`). -/
theorem nextValue_quote_amended :
    getNextValue (dqc :: (str "true" ++ [dqc])) [str "true", str "false"] =
      dqc :: (str "false" ++ [dqc]) ∧
    getNextValue (sqc :: (str "ON" ++ [sqc])) [str "ON", str "OFF"] =
      sqc :: (str "OFF" ++ [sqc]) ∧
    getNextValue (str "true") [str "true", str "false"] = str "false" ∧
    getNextValue mmVal [str "a", str "b"] = str "b" ∧
    (∀ (v : List Char) (G : List (List Char)),
      getNextValue v G = v ∨
      ∃ w ∈ G, getNextValue v G = quoteWrap (detectStyle (trim v)) w) := by
  refine ⟨by decide, by decide, by decide, by decide, ?_⟩
  intro v G
  cases hidx : arrIndexOf (stripQuotes (trim v)) G with
  | none =>
    left
    simp only [getNextValue, hidx]
  | some i =>
    right
    have hG0 : G ≠ [] := by
      intro h
      subst h
      simp [arrIndexOf] at hidx
    have hn0 : 0 < G.length := List.length_pos.mpr hG0
    have hlt : (i + 1) % G.length < G.length := Nat.mod_lt _ hn0
    refine ⟨G.getD ((i + 1) % G.length) [], mem_of_idx (idx_of_getD [] hlt), ?_⟩
    simp only [getNextValue, hidx]
    by_cases hd : hasDoubleQuotes (trim v) = true
    · simp [detectStyle, quoteWrap, hd]
    · by_cases hs : hasSingleQuotes (trim v) = true
      · simp [detectStyle, quoteWrap, hd, hs]
      · simp [detectStyle, quoteWrap, hd, hs]

/-- C5 (amended): the matcher's normalization trims whitespace (and removes
carriage returns), then strips at most one leading and at most one trailing
double/single quote independently — a quote is stripped even when unpaired or
mismatched (the four `stripQuotes` equations below, for an arbitrary
quote-free core and arbitrary, possibly different, quote characters); values
whose normalized form is empty are never matched to a group. -/
theorem findToggleValues_strip_amended (core : List Char) (q1 q2 : Char)
    (hq1 : isQuoteChar q1 = true) (hq2 : isQuoteChar q2 = true)
    (hne : core ≠ [])
    (hh : isQuoteChar (core.headD spaceChar) = false)
    (hl : isQuoteChar (core.getLastD spaceChar) = false) :
    stripQuotes (q1 :: (core ++ [q2])) = core ∧
    stripQuotes (q1 :: core) = core ∧
    stripQuotes (core ++ [q2]) = core ∧
    stripQuotes core = core ∧
    (∀ (value : List Char) (tv : List (List (List Char))),
      stripQuotes ((trim value).filter (fun c => c ≠ crChar)) = [] →
      findToggleValues value tv = none) := by
  obtain ⟨c0, rest, rfl⟩ : ∃ c0 rest, core = c0 :: rest := by
    cases core with
    | nil => exact absurd rfl hne
    | cons a b => exact ⟨a, b, rfl⟩
  have hh0 : isQuoteChar c0 = false := by simpa using hh
  refine ⟨?_, ?_, ?_, ?_, ?_⟩
  · simp only [stripQuotes, hq1, if_true, List.getLast?_concat, hq2, List.dropLast_concat]
  · simp only [stripQuotes, hq1, if_true]
    cases hgl : (c0 :: rest).getLast? with
    | none => simp at hgl
    | some x =>
      have hx : isQuoteChar x = false := by
        have : (c0 :: rest).getLastD spaceChar = x := by
          rw [List.getLastD_eq_getLast?, hgl]
          rfl
        rw [← this]
        exact hl
      simp only [hx]
      simp
  · have hjoin : (c0 :: rest) ++ [q2] = c0 :: (rest ++ [q2]) := rfl
    rw [hjoin]
    simp only [stripQuotes, hh0, Bool.false_eq_true, if_false]
    rw [← hjoin]
    simp only [List.getLast?_concat, hq2, if_true, List.dropLast_concat]
  · simp only [stripQuotes, hh0, Bool.false_eq_true, if_false]
    cases hgl : (c0 :: rest).getLast? with
    | none => simp at hgl
    | some x =>
      have hx : isQuoteChar x = false := by
        have : (c0 :: rest).getLastD spaceChar = x := by
          rw [List.getLastD_eq_getLast?, hgl]
          rfl
        rw [← this]
        exact hl
      simp only [hx]
      simp
  · intro value tv h
    simp only [findToggleValues]
    rw [if_pos h]

theorem findToggleValues_strip_amended_witness :
    stripQuotes (dqc :: (str "a" ++ [sqc])) = str "a" ∧
    stripQuotes (dqc :: str "a") = str "a" ∧
    stripQuotes (str "a" ++ [sqc]) = str "a" ∧
    stripQuotes (str "a") = str "a" ∧
    (∀ (value : List Char) (tv : List (List (List Char))),
      stripQuotes ((trim value).filter (fun c => c ≠ crChar)) = [] →
      findToggleValues value tv = none) :=
  findToggleValues_strip_amended (str "a") dqc sqc (by decide) (by decide) (by decide)
    (by decide) (by decide)

lemma strIdxAux_le (pat : List Char) (l : List Char) (p : Nat)
    (h : pat.isPrefixOf (l.drop p) = true) :
    ∃ q, strIdxAux pat l = some q ∧ q ≤ p := by
  induction l generalizing p with
  | nil =>
    rw [List.drop_nil] at h
    exact ⟨0, by simp [strIdxAux, h], Nat.zero_le _⟩
  | cons c rest ih =>
    by_cases hpre : pat.isPrefixOf (c :: rest) = true
    · exact ⟨0, by simp [strIdxAux, hpre], Nat.zero_le _⟩
    · cases p with
      | zero =>
        rw [List.drop_zero] at h
        exact absurd h hpre
      | succ p2 =>
        rw [List.drop_succ_cons] at h
        obtain ⟨q, hq, hle⟩ := ih p2 h
        exact ⟨q + 1, by simp [strIdxAux, hpre, hq], Nat.succ_le_succ hle⟩

lemma charIdxAux_append (a b : List Char)
    (hfree : ∀ c ∈ a, (c == eqChar) = false) :
    charIdxAux eqChar (a ++ eqChar :: b) = some a.length := by
  induction a with
  | nil => simp [charIdxAux]
  | cons x a2 ih =>
    have hx : (x == eqChar) = false := hfree x (List.mem_cons_self x a2)
    have hrest : ∀ c ∈ a2, (c == eqChar) = false :=
      fun c hc => hfree c (List.mem_cons_of_mem x hc)
    simp [charIdxAux, hx, ih hrest]

lemma charIndexOfFrom_pre (pre post : List Char) (q : Nat)
    (hq : q ≤ pre.length) (hfree : ∀ c ∈ pre, (c == eqChar) = false) :
    charIndexOfFrom (pre ++ eqChar :: post) eqChar ((q : Nat) : Int) = (pre.length : Int) := by
  have htn : ((q : Nat) : Int).toNat = q := by omega
  have hdrop : (pre ++ eqChar :: post).drop q = pre.drop q ++ eqChar :: post := by
    conv_lhs => rw [← List.take_append_drop q pre, List.append_assoc]
    exact List.drop_left' (by rw [List.length_take]; omega)
  have hfree2 : ∀ c ∈ pre.drop q, (c == eqChar) = false :=
    fun c hc => hfree c (List.mem_of_mem_drop hc)
  simp only [charIndexOfFrom, htn, hdrop, charIdxAux_append _ _ hfree2]
  have hqq : q + (pre.drop q).length = pre.length := by
    rw [List.length_drop]
    omega
  rw [hqq]

lemma keyStart_ne_eqChar {c : Char} (h : isKeyStartChar c = true) : (c == eqChar) = false := by
  cases hx : (c == eqChar)
  · rfl
  · have hce : c = eqChar := by simpa using hx
    rw [hce] at h
    exact absurd h (by decide)

lemma keyChar_ne_eqChar {c : Char} (h : isKeyChar c = true) : (c == eqChar) = false := by
  cases hx : (c == eqChar)
  · rfl
  · have hce : c = eqChar := by simpa using hx
    rw [hce] at h
    exact absurd h (by decide)

lemma ws_ne_eqChar {c : Char} (h : isWS c = true) : (c == eqChar) = false := by
  cases hx : (c == eqChar)
  · rfl
  · have hce : c = eqChar := by simpa using hx
    rw [hce] at h
    exact absurd h (by decide)

lemma kvMatchCore_decomp (l k v : List Char) (h : kvMatchCore l = some (k, v)) :
    ∃ ws post, l = k ++ (ws ++ eqChar :: post) ∧
      (∀ c ∈ k, (c == eqChar) = false) ∧
      (∀ c ∈ ws, (c == eqChar) = false) ∧
      v = post.dropWhile isWS := by
  cases l with
  | nil => simp [kvMatchCore] at h
  | cons c rest =>
    by_cases hks : isKeyStartChar c = true
    · cases hAW : (rest.dropWhile isKeyChar).dropWhile isWS with
      | nil => simp [kvMatchCore, hks, hAW] at h
      | cons eqc post =>
        by_cases heqc : (eqc == eqChar) = true
        · have heqc2 : eqc = eqChar := by simpa using heqc
          obtain ⟨hk, hv⟩ : c :: rest.takeWhile isKeyChar = k ∧ post.dropWhile isWS = v := by
            simpa [kvMatchCore, hks, hAW, heqc] using h
          refine ⟨(rest.dropWhile isKeyChar).takeWhile isWS, post, ?_, ?_, ?_, hv.symm⟩
          · rw [← hk]
            have h1 : rest = rest.takeWhile isKeyChar ++ rest.dropWhile isKeyChar :=
              (List.takeWhile_append_dropWhile isKeyChar rest).symm
            have h2 : rest.dropWhile isKeyChar =
                (rest.dropWhile isKeyChar).takeWhile isWS ++ eqChar :: post := by
              conv_lhs => rw [← List.takeWhile_append_dropWhile isWS (rest.dropWhile isKeyChar)]
              rw [hAW, heqc2]
            conv_lhs => rw [h1, h2]
            simp
          · intro c2 hc2
            rw [← hk] at hc2
            rcases List.mem_cons.mp hc2 with h1 | h2
            · subst h1
              exact keyStart_ne_eqChar hks
            · exact keyChar_ne_eqChar (List.mem_takeWhile_imp h2)
          · intro c2 hc2
            exact ws_ne_eqChar (List.mem_takeWhile_imp hc2)
        · simp [kvMatchCore, hks, hAW, heqc] at h
    · simp [kvMatchCore, hks] at h

lemma matchExportWS_decomp (l rest : List Char) (h : matchExportWS l = some rest) :
    ∃ mid, l = str "export" ++ mid ∧ rest = mid.dropWhile isWS := by
  simp only [matchExportWS] at h
  by_cases hpre : (str "export").isPrefixOf l = true
  · rw [if_pos hpre] at h
    by_cases hemp : (l.drop 6).takeWhile isWS = []
    · rw [if_pos hemp] at h
      simp at h
    · rw [if_neg hemp] at h
      have hrest : (l.drop 6).dropWhile isWS = rest := by injection h
      obtain ⟨t, ht⟩ : str "export" <+: l := List.isPrefixOf_iff_prefix.mp hpre
      have hdt : l.drop 6 = t := by
        rw [← ht]
        exact List.drop_left' (by decide)
      refine ⟨t, ht.symm, ?_⟩
      rw [hdt] at hrest
      exact hrest.symm
  · rw [if_neg hpre] at h
    simp at h

lemma kvMatchCore_case (l k v : List Char) (h : kvMatchCore l = some (k, v)) :
    ∃ pre post p, l = pre ++ eqChar :: post ∧
      (∀ c ∈ pre, (c == eqChar) = false) ∧
      v = post.dropWhile isWS ∧
      p ≤ pre.length ∧ k.isPrefixOf (l.drop p) = true := by
  obtain ⟨ws, post, hl, hkf, hwf, hv⟩ := kvMatchCore_decomp l k v h
  refine ⟨k ++ ws, post, 0, by rw [hl]; simp, ?_, hv, Nat.zero_le _, ?_⟩
  · intro c hc
    rcases List.mem_append.mp hc with h1 | h2
    · exact hkf c h1
    · exact hwf c h2
  · rw [List.drop_zero, hl]
    exact List.isPrefixOf_iff_prefix.mpr (List.prefix_append k _)

lemma export_ne_eqChar : ∀ c ∈ str "export", (c == eqChar) = false := by decide

lemma kvMatch_decomp (l k v : List Char) (h : kvMatch l = some (k, v)) :
    ∃ pre post p, l = pre ++ eqChar :: post ∧
      (∀ c ∈ pre, (c == eqChar) = false) ∧
      v = post.dropWhile isWS ∧
      p ≤ pre.length ∧ k.isPrefixOf (l.drop p) = true := by
  cases hexp : matchExportWS l with
  | none =>
    rw [kvMatch, hexp] at h
    exact kvMatchCore_case l k v h
  | some rest =>
    rw [kvMatch, hexp] at h
    cases hcr : kvMatchCore rest with
    | none =>
      have h3 : (match kvMatchCore rest with
          | some r => some r
          | none => kvMatchCore l) = some (k, v) := h
      rw [hcr] at h3
      exact kvMatchCore_case l k v h3
    | some r =>
      have h3 : (match kvMatchCore rest with
          | some r => some r
          | none => kvMatchCore l) = some (k, v) := h
      rw [hcr] at h3
      have hr : r = (k, v) := by injection h3
      rw [hr] at hcr
      obtain ⟨mid, hlmid, hrmid⟩ := matchExportWS_decomp l rest hexp
      obtain ⟨ws2, post, hrestd, hkf, hwf, hv⟩ := kvMatchCore_decomp rest k v hcr
      obtain ⟨wsr, hwsr⟩ : ∃ wsr, mid.takeWhile isWS = wsr := ⟨_, rfl⟩
      have hmid : mid = wsr ++ rest := by
        conv_lhs => rw [← List.takeWhile_append_dropWhile isWS mid]
        rw [hwsr, ← hrmid]
      have hwsr_ws : ∀ c ∈ wsr, isWS c = true := by
        intro c hc
        rw [← hwsr] at hc
        exact List.mem_takeWhile_imp hc
      have hlfull : l = (str "export" ++ (wsr ++ (k ++ ws2))) ++ eqChar :: post := by
        rw [hlmid, hmid, hrestd]
        simp
      refine ⟨str "export" ++ (wsr ++ (k ++ ws2)), post,
        (str "export").length + wsr.length, hlfull, ?_, hv, ?_, ?_⟩
      · intro c hc
        rcases List.mem_append.mp hc with h1 | h23
        · exact export_ne_eqChar c h1
        · rcases List.mem_append.mp h23 with h2 | h34
          · exact ws_ne_eqChar (hwsr_ws c h2)
          · rcases List.mem_append.mp h34 with h3 | h4
            · exact hkf c h3
            · exact hwf c h4
      · simp only [List.length_append]
        omega
      · have hdrop : l.drop ((str "export").length + wsr.length) =
            k ++ (ws2 ++ eqChar :: post) := by
          rw [hlmid, hmid, hrestd, ← List.append_assoc]
          exact List.drop_left' (by simp)
        rw [hdrop]
        exact List.isPrefixOf_iff_prefix.mpr (List.prefix_append k _)

lemma head_dropWhile_false {α} (p : α → Bool) (x : List α) (c : α) (t : List α)
    (h : x.dropWhile p = c :: t) : p c = false := by
  have hh := List.head?_dropWhile_not p x
  rw [h] at hh
  simpa using hh

lemma dropWhile_self {α} (p : α → Bool) (l : List α) :
    (l.dropWhile p).dropWhile p = l.dropWhile p := by
  cases hd : l.dropWhile p with
  | nil => rfl
  | cons c t =>
    have hpc : p c = false := head_dropWhile_false p l c t hd
    rw [List.dropWhile_cons, hpc]
    simp

lemma rtrim_append (l : List Char) : rtrim l ++ (l.reverse.takeWhile isWS).reverse = l := by
  rw [rtrim, ← List.reverse_append, List.takeWhile_append_dropWhile, List.reverse_reverse]

lemma ltrim_ltrim (l : List Char) : ltrim (ltrim l) = ltrim l := dropWhile_self isWS l

lemma ltrim_rtrim (l : List Char) (h : ltrim l = l) : ltrim (rtrim l) = rtrim l := by
  cases hr : rtrim l with
  | nil => rfl
  | cons c t =>
    have hl2 : l = c :: (t ++ (l.reverse.takeWhile isWS).reverse) := by
      conv_lhs => rw [← rtrim_append l]
      rw [hr]
      rfl
    have hc : isWS c = false :=
      head_dropWhile_false isWS l c _ (h.trans hl2)
    rw [ltrim, List.dropWhile_cons, hc]
    simp

lemma rtrim_rtrim (l : List Char) : rtrim (rtrim l) = rtrim l := by
  rw [rtrim, rtrim, List.reverse_reverse, dropWhile_self]

lemma trim_trim (l : List Char) : trim (trim l) = trim l := by
  rw [trim, trim, ltrim_rtrim (ltrim l) (ltrim_ltrim l), rtrim_rtrim]

/-- C7: for every line `parseLine` turns into an entry, the value span is
well-formed — `0 ≤ valueStart ≤ valueEnd ≤ length of the CR-stripped line`,
its width is exactly the stored (trimmed) value's length, the span's slice of
the CR-stripped line is exactly the stored value, and the stored value carries
no surrounding whitespace. -/
theorem parseLine_offsets (line : List Char) (ln : Nat)
    (tv : List (List (List Char))) (e : DotFileEntry)
    (h : parseLine line ln tv = some e) :
    0 ≤ e.valueStart ∧ e.valueStart ≤ e.valueEnd ∧
    e.valueEnd ≤ ((line.filter (fun c => c ≠ crChar)).length : Int) ∧
    e.valueEnd - e.valueStart = (e.value.length : Int) ∧
    ((line.filter (fun c => c ≠ crChar)).drop e.valueStart.toNat).take e.value.length =
      e.value ∧
    trim e.value = e.value := by
  rw [parseLine] at h
  by_cases hc : ((trim line).isEmpty || ((trim line).head? == some hashChar)) = true
  · rw [if_pos hc] at h
    simp at h
  · rw [if_neg hc] at h
    dsimp only at h
    cases hm : kvMatch (line.filter (fun c => c ≠ crChar)) with
    | none =>
      rw [hm] at h
      simp at h
    | some kv =>
      obtain ⟨k, v⟩ := kv
      rw [hm] at h
      obtain rfl : _ = e := Option.some.inj h
      dsimp only
      obtain ⟨pre, post, p, hleq, hfree, hv, hple, hkpre⟩ :=
        kvMatch_decomp (line.filter (fun c => c ≠ crChar)) k v hm
      subst hv
      obtain ⟨q, hq, hqle⟩ := strIdxAux_le k (line.filter (fun c => c ≠ crChar)) p hkpre
      have hKI : strIndexOf (line.filter (fun c => c ≠ crChar)) k = ((q : Nat) : Int) := by
        rw [strIndexOf, hq]
      have hEI : charIndexOfFrom (line.filter (fun c => c ≠ crChar)) eqChar ((q : Nat) : Int) =
          (pre.length : Int) := by
        rw [hleq]
        exact charIndexOfFrom_pre pre post q (Nat.le_trans hqle hple) hfree
      rw [hKI, hEI]
      have htn : ((pre.length : Int) + 1).toNat = pre.length + 1 := by omega
      rw [htn]
      have hpost : (line.filter (fun c => c ≠ crChar)).drop (pre.length + 1) = post := by
        rw [hleq, List.append_cons]
        exact List.drop_left' (by simp)
      rw [hpost]
      obtain ⟨wsp, hwsp⟩ : ∃ wsp, post.takeWhile isWS = wsp := ⟨_, rfl⟩
      obtain ⟨v0, hv0⟩ : ∃ v0, post.dropWhile isWS = v0 := ⟨_, rfl⟩
      have hpostsplit : post = wsp ++ v0 := by
        conv_lhs => rw [← List.takeWhile_append_dropWhile isWS post]
        rw [hwsp, hv0]
      have hlenpost : post.length = wsp.length + v0.length := by
        rw [hpostsplit, List.length_append]
      rw [hv0]
      have hA : (pre.length : Int) + 1 + ((post.length : Int) - (v0.length : Int)) =
          ((pre.length + 1 + wsp.length : Nat) : Int) := by
        push_cast
        omega
      rw [hA]
      obtain ⟨w1, hw1⟩ : ∃ w1, rtrim v0 = w1 := ⟨_, rfl⟩
      obtain ⟨wt, hwt⟩ : ∃ wt, (v0.reverse.takeWhile isWS).reverse = wt := ⟨_, rfl⟩
      have hv0split : v0 = w1 ++ wt := by
        conv_lhs => rw [← rtrim_append v0]
        rw [hw1, hwt]
      have hvtrim : trim v0 = w1 := by
        rw [trim]
        have hlt : ltrim v0 = v0 := by
          rw [← hv0]
          exact dropWhile_self isWS post
        rw [hlt, hw1]
      have hlenv0 : v0.length = w1.length + wt.length := by
        rw [hv0split, List.length_append]
      have hcllen : (line.filter (fun c => c ≠ crChar)).length = pre.length + 1 + post.length := by
        rw [hleq, List.append_cons, List.length_append, List.length_append]
        simp
      rw [hvtrim]
      have hslice : ((line.filter (fun c => c ≠ crChar)).drop
          (((pre.length + 1 + wsp.length : Nat) : Int)).toNat).take w1.length = w1 := by
        have htn2 : (((pre.length + 1 + wsp.length : Nat) : Int)).toNat =
            pre.length + 1 + wsp.length := by omega
        rw [htn2]
        have hdec : (line.filter (fun c => c ≠ crChar)) =
            ((pre ++ [eqChar]) ++ wsp) ++ (w1 ++ wt) := by
          rw [hleq, List.append_cons, hpostsplit, hv0split]
          simp
        rw [hdec]
        rw [List.drop_left' (by simp; omega)]
        exact List.take_left' rfl
      refine ⟨by omega, by omega, ?_, by push_cast; omega, hslice, ?_⟩
      · push_cast
        omega
      · rw [← hvtrim, trim_trim, hvtrim]

theorem parseLine_offsets_witness :
    parseLine exampleLine 0 [] = some exampleEntry ∧
    (0 ≤ exampleEntry.valueStart ∧ exampleEntry.valueStart ≤ exampleEntry.valueEnd ∧
    exampleEntry.valueEnd ≤ ((exampleLine.filter (fun c => c ≠ crChar)).length : Int) ∧
    exampleEntry.valueEnd - exampleEntry.valueStart = (exampleEntry.value.length : Int) ∧
    ((exampleLine.filter (fun c => c ≠ crChar)).drop
        exampleEntry.valueStart.toNat).take exampleEntry.value.length = exampleEntry.value ∧
    trim exampleEntry.value = exampleEntry.value) :=
  ⟨by decide, parseLine_offsets exampleLine 0 [] exampleEntry (by decide)⟩
